import Mathlib

/-!
# Verification of the libRSF Sum-Mixture robust error model

Shallow embedding of `src/include/error_models/SumMixture.h` (class
`SumMixture<Dim, MixtureType, SpecialNormalization>`), over the reals.
The mixture container (`GaussianMixture.h`), the error-model base class
(`ErrorModel.h`, providing the `_Enable` flag) and the stable combinator
(`NumericalRobust.h`, providing `ScaledLogSumExp`) are not part of the
available sources; they are modelled from the specification, as noted on
each definition.
-/

namespace LibRSF

/-- Modelled from the spec: `GaussianMixture.h` is missing from the sources.
Per §3/§4.1, a component is a weighted Gaussian hypothesis, abstracted here by
the three per-component queries the Sum-Mixture model uses: `expPart` is
`getExponentialPartOfComponent` (the Mahalanobis-style exponent vector at a raw
error), `linPart` is `getLinearPartOfComponent` (the multiplicative scale
factor), and `maxVal` is `getMaximumOfComponent` (the peak density value of the
component alone). -/
structure Component (Dim : ℕ) where
  expPart : (Fin Dim → ℝ) → (Fin Dim → ℝ)
  linPart : (Fin Dim → ℝ) → ℝ
  maxVal : ℝ

/-- Modelled from the spec: `GaussianMixture.h` is missing from the sources.
Per §3/§4.1, a Gaussian mixture is an ordered sequence of components; the
sequence index is a component's stable identity. -/
structure MixtureType (Dim : ℕ) where
  comps : List (Component Dim)

/-- `GaussianMixture::getNumberOfComponents`. -/
def getNumberOfComponents {Dim : ℕ} (M : MixtureType Dim) : ℕ := M.comps.length

/-- `GaussianMixture::getMaximumOfComponent` for an in-range index. -/
def getMaximumOfComponent {Dim : ℕ} (M : MixtureType Dim)
    (i : Fin (getNumberOfComponents M)) : ℝ :=
  (M.comps.get i).maxVal

/-- Eigen's `maxCoeff` on a list of coefficients (`0` on the empty list, where
the C++ operation is unspecified). -/
def maxCoeff : List ℝ → ℝ
  | [] => 0
  | e :: rest => rest.foldl max e

/-- Modelled from the spec: `ScaledLogSumExp` (`NumericalRobust.h`) is missing
from the sources. Per §4.2 it computes `log(Σ sᵢ·exp(eᵢ))` by subtracting the
maximum exponent before exponentiating and adding it back after taking the
log. -/
noncomputable def ScaledLogSumExp (Exponents Scalings : List ℝ) : ℝ :=
  Real.log
      ((List.zipWith (fun s e => s * Real.exp (e - maxCoeff Exponents)) Scalings Exponents).sum)
    + maxCoeff Exponents

/-- Eigen's `squaredNorm`: sum of squared entries. -/
def squaredNorm {Dim : ℕ} (v : Fin Dim → ℝ) : ℝ := ∑ i, v i ^ 2

/-- The Sum-Mixture error model state (`SumMixture.h`, lines 51–137): the owned
mixture `_Mixture`, the normalization constant `_Normalization`, and the enable
flag. The flag `_Enable` is inherited from the `ErrorModel` base class, whose
header is missing from the sources; it is modelled from the spec (§4.3: the
model "can be toggled on/off"). -/
structure SumMixture (Dim : ℕ) where
  _Mixture : MixtureType Dim
  _Normalization : ℝ
  _Enable : Bool

/-- The per-component exponents accumulated by the loop in `weight`
(`SumMixture.h`, line 89): `Exponents(n) = -0.5·(‖expPart(n, x)‖² + 1e-10)`. -/
def mixtureExponents {Dim : ℕ} (M : MixtureType Dim) (RawError : Fin Dim → ℝ) : List ℝ :=
  M.comps.map (fun c => -0.5 * (squaredNorm (c.expPart RawError) + 1e-10))

/-- The per-component scalings accumulated by the loop in `weight`
(`SumMixture.h`, line 90): `Scalings(n) = linPart(n, x)`. -/
def mixtureScalings {Dim : ℕ} (M : MixtureType Dim) (RawError : Fin Dim → ℝ) : List ℝ :=
  M.comps.map (fun c => c.linPart RawError)

/-- `SumMixture::weight` (`SumMixture.h`, lines 73–104), in state-passing form:
given the object state `S`, the input `RawError` and the previous contents of
the caller's output buffer `Error`, it returns the object state after the call,
the new buffer contents, and the C++ `bool` return value. When enabled, the
buffer is filled with
`sqrt(-2·(ScaledLogSumExp(Exponents, Scalings) - log(N + 1e-10))) / sqrt(Dim)`;
when disabled the raw error is passed through. -/
noncomputable def weight {Dim : ℕ} (S : SumMixture Dim) (RawError Error : Fin Dim → ℝ) :
    SumMixture Dim × (Fin Dim → ℝ) × Bool :=
  if S._Enable then
    (S, fun _ =>
      Real.sqrt (-2.0 * (ScaledLogSumExp (mixtureExponents S._Mixture RawError)
            (mixtureScalings S._Mixture RawError)
          - Real.log (S._Normalization + 1e-10)))
        / Real.sqrt (Dim : ℝ), true)
  else
    (S, RawError, true)

/-- The normalization constant computed by `SumMixture::addMixture`
(`SumMixture.h`, lines 108–133). Standard strategy
(`SpecialNormalization == false`): sum the per-component maxima starting from
`0`. Special strategy: start from component `0`'s maximum, fold `std::max` over
the remaining components, then multiply by the component count and add `10`.
Component access is modelled as fallible (`Option`): the special strategy reads
`getMaximumOfComponent(0)` unconditionally, which has no value on an empty
mixture (`GaussianMixture.h` is missing from the sources; per spec §7 an empty
mixture is a precondition violation). -/
def addMixtureNorm {Dim : ℕ} (SpecialNormalization : Bool) (Mixture : MixtureType Dim) :
    Option ℝ :=
  if SpecialNormalization = false then
    some (Mixture.comps.foldl (fun N c => N + c.maxVal) 0)
  else
    match Mixture.comps with
    | [] => none
    | c :: rest =>
        some (rest.foldl (fun N c2 => max N c2.maxVal) c.maxVal
          * ((getNumberOfComponents Mixture : ℝ)) + 10)

/-- `SumMixture::addMixture` (`SumMixture.h`, lines 108–133): stores the given
mixture and the normalization constant computed from it; the enable flag is
untouched. -/
def addMixture {Dim : ℕ} (SpecialNormalization : Bool) (S : SumMixture Dim)
    (Mixture : MixtureType Dim) : Option (SumMixture Dim) :=
  (addMixtureNorm SpecialNormalization Mixture).map
    (fun N => { S with _Mixture := Mixture, _Normalization := N })

/-- A concrete one-component mixture component used by witnesses: identity
exponential part, constant linear part `1`, peak value `1`. -/
def demoComponent : Component 1 :=
  ⟨fun v => v, fun _ => 1, 1⟩

/-- A concrete one-component mixture used by witnesses. -/
def demoMixture : MixtureType 1 := ⟨[demoComponent]⟩

/-- A concrete enabled Sum-Mixture model used by witnesses. -/
noncomputable def demoModel : SumMixture 1 := ⟨demoMixture, 1, true⟩

/-- A second concrete component, distinct from `demoComponent`, used by the
permutation witness. -/
def demoComponentB : Component 1 :=
  ⟨fun v => fun i => v i + 1, fun _ => 2, 2⟩

lemma demoMixture_ncomp_pos : 0 < getNumberOfComponents demoMixture :=
  Nat.zero_lt_one

section MaxHelpers

lemma le_foldl_max (a : ℝ) (l : List ℝ) : a ≤ l.foldl max a := by
  induction l generalizing a with
  | nil => exact le_refl a
  | cons b t ih => exact le_trans (le_max_left a b) (ih (max a b))

lemma mem_le_foldl_max {x : ℝ} {l : List ℝ} (hx : x ∈ l) (a : ℝ) : x ≤ l.foldl max a := by
  induction l generalizing a with
  | nil => cases hx
  | cons b t ih =>
    rcases List.mem_cons.mp hx with h | h
    · subst h
      exact le_trans (le_max_right a x) (le_foldl_max (max a x) t)
    · exact ih h (max a b)

lemma foldl_max_mem (a : ℝ) (l : List ℝ) : l.foldl max a = a ∨ l.foldl max a ∈ l := by
  induction l generalizing a with
  | nil => exact Or.inl rfl
  | cons b t ih =>
    rw [List.foldl_cons]
    rcases ih (max a b) with h | h
    · rcases max_choice a b with hab | hab
      · exact Or.inl (h.trans hab)
      · exact Or.inr (List.mem_cons.mpr (Or.inl (h.trans hab)))
    · exact Or.inr (List.mem_cons.mpr (Or.inr h))

lemma le_maxCoeff {x : ℝ} {l : List ℝ} (hx : x ∈ l) : x ≤ maxCoeff l := by
  cases l with
  | nil => cases hx
  | cons e rest =>
    rcases List.mem_cons.mp hx with h | h
    · subst h
      exact le_foldl_max x rest
    · exact mem_le_foldl_max h e

lemma maxCoeff_mem {l : List ℝ} (h : l ≠ []) : maxCoeff l ∈ l := by
  cases l with
  | nil => exact absurd rfl h
  | cons e rest =>
    rcases foldl_max_mem e rest with h1 | h1
    · rw [maxCoeff, h1]
      exact List.mem_cons_self e rest
    · exact List.mem_cons.mpr (Or.inr h1)

lemma maxCoeff_perm {l1 l2 : List ℝ} (p : l1.Perm l2) : maxCoeff l1 = maxCoeff l2 := by
  rcases eq_or_ne l1 [] with h | h
  · subst h
    rw [← p.nil_eq]
  · have h2 : l2 ≠ [] := by
      intro hh
      subst hh
      exact h p.eq_nil
    exact le_antisymm (le_maxCoeff (p.mem_iff.mp (maxCoeff_mem h)))
      (le_maxCoeff (p.mem_iff.mpr (maxCoeff_mem h2)))

lemma foldl_add_eq_sum (l : List ℝ) (a : ℝ) : l.foldl (fun N v => N + v) a = a + l.sum := by
  induction l generalizing a with
  | nil => simp
  | cons b t ih => simp [ih, add_assoc]

lemma zipWith_map_same {δ : Type} (h : ℝ → ℝ → ℝ) (g f : δ → ℝ) (l : List δ) :
    List.zipWith h (l.map g) (l.map f) = l.map (fun c => h (g c) (f c)) := by
  induction l with
  | nil => rfl
  | cons c t ih => simp [ih]

lemma maxCoeff_map_eq_sup' {δ : Type} (l : List δ) (f : δ → ℝ) (h : 0 < l.length) :
    maxCoeff (l.map f)
      = Finset.univ.sup' ⟨⟨0, h⟩, Finset.mem_univ _⟩ (fun i : Fin l.length => f (l.get i)) := by
  apply le_antisymm
  · have hne : l.map f ≠ [] := by
      simp only [ne_eq, List.map_eq_nil_iff]
      exact List.ne_nil_of_length_pos h
    obtain ⟨x, hx, hfx⟩ := List.mem_map.mp (maxCoeff_mem hne)
    obtain ⟨i, hi⟩ := List.mem_iff_get.mp hx
    rw [← hfx, ← hi]
    exact Finset.le_sup' (fun j : Fin l.length => f (l.get j)) (Finset.mem_univ i)
  · apply Finset.sup'_le
    intro i _
    exact le_maxCoeff (List.mem_map_of_mem f (l.get_mem i.1 i.2))

end MaxHelpers

/-- The fold in the special normalization branch is the maximum coefficient of
the mapped list of per-component maxima. -/
lemma specialFold_eq_maxCoeff {Dim : ℕ} (c : Component Dim) (rest : List (Component Dim)) :
    rest.foldl (fun N c2 => max N c2.maxVal) c.maxVal
      = maxCoeff ((c :: rest).map Component.maxVal) := by
  simp only [List.map_cons, maxCoeff]
  exact (List.foldl_map _ _ _ _).symm

/-- The standard-normalization fold is the sum of the per-component maxima. -/
lemma standardNorm_eq_sum {Dim : ℕ} (l : List (Component Dim)) :
    l.foldl (fun (N : ℝ) c => N + c.maxVal) 0 = (l.map Component.maxVal).sum := by
  rw [show l.foldl (fun (N : ℝ) c => N + c.maxVal) 0
      = (l.map Component.maxVal).foldl (fun N v => N + v) 0 from
    (List.foldl_map _ _ _ _).symm]
  rw [foldl_add_eq_sum, zero_add]

/-- `ScaledLogSumExp` applied to two lists mapped from a common list is
invariant under permuting that common list. -/
lemma ScaledLogSumExp_map_perm {δ : Type} {l1 l2 : List δ} (p : l1.Perm l2)
    (f g : δ → ℝ) :
    ScaledLogSumExp (l1.map f) (l1.map g) = ScaledLogSumExp (l2.map f) (l2.map g) := by
  have hmax : maxCoeff (l1.map f) = maxCoeff (l2.map f) := maxCoeff_perm (p.map f)
  rw [ScaledLogSumExp, ScaledLogSumExp, hmax, zipWith_map_same, zipWith_map_same]
  congr 1
  exact congrArg Real.log ((p.map _).sum_eq)

/-- The combined log-sum-exp of the per-component exponents and scalings is
invariant under permuting the mixture's components. -/
lemma SLSE_mixture_perm {Dim : ℕ} {M1 M2 : MixtureType Dim}
    (p : M1.comps.Perm M2.comps) (x : Fin Dim → ℝ) :
    ScaledLogSumExp (mixtureExponents M1 x) (mixtureScalings M1 x)
      = ScaledLogSumExp (mixtureExponents M2 x) (mixtureScalings M2 x) := by
  rw [mixtureExponents, mixtureScalings, mixtureExponents, mixtureScalings]
  exact ScaledLogSumExp_map_perm p _ _

/-- Both normalization strategies compute the same constant on permuted
mixtures. -/
lemma addMixtureNorm_perm {Dim : ℕ} (SpecialNormalization : Bool)
    {M1 M2 : MixtureType Dim} (p : M1.comps.Perm M2.comps) :
    addMixtureNorm SpecialNormalization M1 = addMixtureNorm SpecialNormalization M2 := by
  cases SpecialNormalization with
  | false =>
    rw [addMixtureNorm, addMixtureNorm, if_pos rfl, if_pos rfl]
    congr 1
    rw [standardNorm_eq_sum, standardNorm_eq_sum]
    exact (p.map Component.maxVal).sum_eq
  | true =>
    obtain ⟨l1⟩ := M1
    obtain ⟨l2⟩ := M2
    cases l1 with
    | nil =>
      cases l2 with
      | nil => rfl
      | cons c2 r2 => exact List.noConfusion p.nil_eq
    | cons c1 r1 =>
      cases l2 with
      | nil => exact List.noConfusion p.eq_nil
      | cons c2 r2 =>
        have hred1 : addMixtureNorm true (⟨c1 :: r1⟩ : MixtureType Dim)
            = some (r1.foldl (fun N c => max N c.maxVal) c1.maxVal
                * ((getNumberOfComponents (⟨c1 :: r1⟩ : MixtureType Dim) : ℝ)) + 10) := rfl
        have hred2 : addMixtureNorm true (⟨c2 :: r2⟩ : MixtureType Dim)
            = some (r2.foldl (fun N c => max N c.maxVal) c2.maxVal
                * ((getNumberOfComponents (⟨c2 :: r2⟩ : MixtureType Dim) : ℝ)) + 10) := rfl
        rw [hred1, hred2]
        have hfold : r1.foldl (fun N c => max N c.maxVal) c1.maxVal
            = r2.foldl (fun N c => max N c.maxVal) c2.maxVal := by
          rw [specialFold_eq_maxCoeff, specialFold_eq_maxCoeff]
          exact maxCoeff_perm (p.map Component.maxVal)
        have hlen : getNumberOfComponents (⟨c1 :: r1⟩ : MixtureType Dim)
            = getNumberOfComponents (⟨c2 :: r2⟩ : MixtureType Dim) := p.length_eq
        rw [hfold, hlen]

/-- The combined log-sum-exp of the demo model at the zero raw error. -/
lemma demoSLSE_eq :
    ScaledLogSumExp (mixtureExponents demoMixture (fun _ => 0))
      (mixtureScalings demoMixture (fun _ => 0)) = -(0.5 * 1e-10) := by
  simp [ScaledLogSumExp, mixtureExponents, mixtureScalings, demoMixture, demoComponent,
    maxCoeff, squaredNorm]

/-- The radicand of the demo model at the zero raw error is nonnegative. -/
lemma demoModel_radicand_nonneg :
    0 ≤ -2.0 * (ScaledLogSumExp (mixtureExponents demoModel._Mixture (fun _ => 0))
        (mixtureScalings demoModel._Mixture (fun _ => 0))
      - Real.log (demoModel._Normalization + 1e-10)) := by
  have h1 : demoModel._Mixture = demoMixture := rfl
  have h2 : demoModel._Normalization = 1 := rfl
  rw [h1, h2, demoSLSE_eq]
  have hlog : 0 ≤ Real.log ((1 : ℝ) + 1e-10) := Real.log_nonneg (by norm_num)
  nlinarith

/-- C2: for every raw-error vector, if the model is disabled then `weight`
writes exactly the raw error to the output buffer, regardless of the attached
mixture or normalization constant. -/
theorem weight_disabled_identity {Dim : ℕ} (S : SumMixture Dim)
    (hEn : S._Enable = false) (RawError Error : Fin Dim → ℝ) :
    (weight S RawError Error).2.1 = RawError := by
  simp [weight, hEn]

/-- Witness for the disabled-identity theorem at a concrete disabled model and
a concrete input. -/
theorem weight_disabled_identity_witness :
    (weight ⟨⟨[]⟩, 5, false⟩ (fun _ : Fin 2 => 3) (fun _ => 0)).2.1 = (fun _ : Fin 2 => 3) :=
  weight_disabled_identity ⟨⟨[]⟩, 5, false⟩ rfl (fun _ => 3) (fun _ => 0)

/-- C8: every call of `weight`, enabled or disabled, leaves the model state
(the owned mixture, the normalization constant, and the enable flag)
unchanged. -/
theorem weight_preserves_state {Dim : ℕ} (S : SumMixture Dim) (RawError Error : Fin Dim → ℝ) :
    (weight S RawError Error).1 = S := by
  unfold weight
  split <;> rfl

/-- C9: `weight` returns `true` on every input, whether the model is enabled or
disabled; it never signals failure through its return value. -/
theorem weight_returns_true {Dim : ℕ} (S : SumMixture Dim) (RawError Error : Fin Dim → ℝ) :
    (weight S RawError Error).2.2 = true := by
  unfold weight
  split <;> rfl

/-- C3: for every raw error and every in-range component index `i`, the
exponent passed to the combinator is `-0.5·(‖exponentialPart(i, x)‖² + 1e-10)`
and the matching scale is `linearPart(i, x)`. -/
theorem weight_component_terms {Dim : ℕ} (M : MixtureType Dim) (x : Fin Dim → ℝ)
    (i : ℕ) (h : i < getNumberOfComponents M) :
    (mixtureExponents M x).get ⟨i, by simpa [mixtureExponents, getNumberOfComponents] using h⟩
        = -0.5 * (squaredNorm ((M.comps.get ⟨i, h⟩).expPart x) + 1e-10)
      ∧ (mixtureScalings M x).get ⟨i, by simpa [mixtureScalings, getNumberOfComponents] using h⟩
        = (M.comps.get ⟨i, h⟩).linPart x := by
  constructor <;> simp [mixtureExponents, mixtureScalings]

/-- Witness for the component-term theorem at a concrete mixture, raw error and
index 0. -/
theorem weight_component_terms_witness :
    (mixtureExponents demoMixture (fun _ => 2)).get
          ⟨0, by simp [mixtureExponents, demoMixture]⟩
        = -0.5 * (squaredNorm ((demoMixture.comps.get ⟨0, demoMixture_ncomp_pos⟩).expPart
            (fun _ => 2)) + 1e-10)
      ∧ (mixtureScalings demoMixture (fun _ => 2)).get
          ⟨0, by simp [mixtureScalings, demoMixture]⟩
        = (demoMixture.comps.get ⟨0, demoMixture_ncomp_pos⟩).linPart (fun _ => 2) :=
  weight_component_terms demoMixture (fun _ => 2) 0 demoMixture_ncomp_pos

/-- C4: under the standard strategy the stored normalization constant is the
sum, over all component indices, of the per-component maxima. -/
theorem addMixtureNorm_standard {Dim : ℕ} (M : MixtureType Dim) :
    addMixtureNorm false M
      = some (∑ i : Fin (getNumberOfComponents M), getMaximumOfComponent M i) := by
  rw [addMixtureNorm, if_pos rfl]
  congr 1
  rw [show M.comps.foldl (fun N c => N + c.maxVal) 0
      = (M.comps.map Component.maxVal).foldl (fun N v => N + v) 0 from
    (List.foldl_map _ _ _ _).symm]
  rw [foldl_add_eq_sum, zero_add, ← Fin.sum_univ_get' M.comps Component.maxVal]
  apply Finset.sum_congr rfl
  intro i _
  simp [getMaximumOfComponent]

/-- C5: under the special strategy the stored normalization constant is the
maximum per-component maximum, times the number of components, plus 10. -/
theorem addMixtureNorm_special {Dim : ℕ} (M : MixtureType Dim)
    (h : 0 < getNumberOfComponents M) :
    addMixtureNorm true M
      = some ((Finset.univ.sup' ⟨⟨0, h⟩, Finset.mem_univ _⟩
            (fun i : Fin (getNumberOfComponents M) => getMaximumOfComponent M i))
          * (getNumberOfComponents M : ℝ) + 10) := by
  obtain ⟨comps⟩ := M
  cases comps with
  | nil => exact absurd h (by simp [getNumberOfComponents])
  | cons c rest =>
    have hred : addMixtureNorm true (⟨c :: rest⟩ : MixtureType Dim)
        = some (rest.foldl (fun N c2 => max N c2.maxVal) c.maxVal
            * ((getNumberOfComponents (⟨c :: rest⟩ : MixtureType Dim) : ℝ)) + 10) := rfl
    rw [hred]
    have hfold : rest.foldl (fun N c2 => max N c2.maxVal) c.maxVal
        = Finset.univ.sup' ⟨⟨0, h⟩, Finset.mem_univ _⟩
            (fun i : Fin (getNumberOfComponents (⟨c :: rest⟩ : MixtureType Dim)) =>
              getMaximumOfComponent (⟨c :: rest⟩ : MixtureType Dim) i) := by
      rw [specialFold_eq_maxCoeff]
      exact maxCoeff_map_eq_sup' (c :: rest) Component.maxVal h
    rw [hfold]

/-- Witness for the special-normalization theorem at the concrete
one-component mixture. -/
theorem addMixtureNorm_special_witness :
    addMixtureNorm true demoMixture
      = some ((Finset.univ.sup' ⟨⟨0, demoMixture_ncomp_pos⟩, Finset.mem_univ _⟩
            (fun i : Fin (getNumberOfComponents demoMixture) =>
              getMaximumOfComponent demoMixture i))
          * (getNumberOfComponents demoMixture : ℝ) + 10) :=
  addMixtureNorm_special demoMixture demoMixture_ncomp_pos

/-- C6: for a mixture with at least one component, all of whose per-component
peak values are positive (as the peak of a Gaussian density is), the
normalization constant exists and is strictly positive under both
strategies. -/
theorem addMixtureNorm_pos {Dim : ℕ} (M : MixtureType Dim) (h : M.comps ≠ [])
    (hpos : ∀ c ∈ M.comps, 0 < c.maxVal) (SpecialNormalization : Bool) :
    ∃ N, addMixtureNorm SpecialNormalization M = some N ∧ 0 < N := by
  obtain ⟨comps⟩ := M
  cases comps with
  | nil => exact absurd rfl h
  | cons c rest =>
    cases SpecialNormalization with
    | false =>
      refine ⟨(c :: rest).foldl (fun (N : ℝ) (c2 : Component Dim) => N + c2.maxVal) 0, rfl, ?_⟩
      rw [show (c :: rest).foldl (fun (N : ℝ) (c2 : Component Dim) => N + c2.maxVal) 0
          = ((c :: rest).map Component.maxVal).foldl (fun N v => N + v) 0 from
        (List.foldl_map _ _ _ _).symm]
      rw [foldl_add_eq_sum, zero_add]
      apply List.sum_pos
      · intro x hx
        obtain ⟨c2, hc2, hcx⟩ := List.mem_map.mp hx
        rw [← hcx]
        exact hpos c2 hc2
      · simp
    | true =>
      refine ⟨rest.foldl (fun N c2 => max N c2.maxVal) c.maxVal
          * ((getNumberOfComponents (⟨c :: rest⟩ : MixtureType Dim) : ℝ)) + 10, rfl, ?_⟩
      have hc0 : 0 < c.maxVal := hpos c (List.mem_cons_self c rest)
      have hfold : c.maxVal ≤ rest.foldl (fun N c2 => max N c2.maxVal) c.maxVal := by
        rw [show rest.foldl (fun N c2 => max N c2.maxVal) c.maxVal
            = (rest.map Component.maxVal).foldl max c.maxVal from
          (List.foldl_map _ _ _ _).symm]
        exact le_foldl_max c.maxVal (rest.map Component.maxVal)
      have hn : (0 : ℝ) < (getNumberOfComponents (⟨c :: rest⟩ : MixtureType Dim) : ℝ) := by
        have : 0 < getNumberOfComponents (⟨c :: rest⟩ : MixtureType Dim) := Nat.succ_pos _
        exact_mod_cast this
      nlinarith [mul_pos (lt_of_lt_of_le hc0 hfold) hn]

/-- Witness for the normalization-positivity theorem at the concrete
one-component mixture under the special strategy. -/
theorem addMixtureNorm_pos_witness :
    ∃ N, addMixtureNorm true demoMixture = some N ∧ 0 < N :=
  addMixtureNorm_pos demoMixture (by simp [demoMixture])
    (by
      intro c hc
      simp only [demoMixture, List.mem_singleton] at hc
      rw [hc]
      norm_num [demoComponent])
    true

/-- C7: attaching a permutation of a mixture's components to an enabled model
yields the same `weight` output for every raw error, under either
normalization strategy. -/
theorem weight_permutation_invariant {Dim : ℕ} (S : SumMixture Dim)
    (hEn : S._Enable = true) (M1 M2 : MixtureType Dim)
    (hperm : M1.comps.Perm M2.comps) (h1 : M1.comps ≠ [])
    (SpecialNormalization : Bool) (x Error : Fin Dim → ℝ) :
    ((addMixture SpecialNormalization S M1).map (fun S1 => (weight S1 x Error).2.1))
      = ((addMixture SpecialNormalization S M2).map (fun S2 => (weight S2 x Error).2.1)) := by
  have hnorm := addMixtureNorm_perm SpecialNormalization hperm
  rw [addMixture, addMixture, hnorm]
  cases hv : addMixtureNorm SpecialNormalization M2 with
  | none => rfl
  | some N =>
    have hS : ∀ (Mx : MixtureType Dim),
        (weight { S with _Mixture := Mx, _Normalization := N } x Error).2.1
          = fun _ : Fin Dim => Real.sqrt (-2.0 * (ScaledLogSumExp (mixtureExponents Mx x)
              (mixtureScalings Mx x) - Real.log (N + 1e-10))) / Real.sqrt (Dim : ℝ) := by
      intro Mx
      simp [weight, hEn]
    simp only [Option.map_map, Option.map_some', Function.comp]
    rw [hS M1, hS M2, SLSE_mixture_perm hperm x]

/-- C1: for every enabled evaluation, every element of the output vector
equals the scalar `m = sqrt(-2·(L - log(N + 1e-10)))/sqrt(Dim)`, where `L` is
the `ScaledLogSumExp` of the per-component exponents and scalings and `N` is
the stored normalization constant; consequently, for positive dimension and a
nonnegative radicand, `Dim·m²` equals `-2·(L - log(N + 1e-10))`. -/
theorem weight_equal_distribution {Dim : ℕ} (S : SumMixture Dim)
    (hEn : S._Enable = true) (hDim : 0 < Dim) (x Error : Fin Dim → ℝ)
    (hRad : 0 ≤ -2.0 * (ScaledLogSumExp (mixtureExponents S._Mixture x)
        (mixtureScalings S._Mixture x) - Real.log (S._Normalization + 1e-10))) :
    (∀ i : Fin Dim, (weight S x Error).2.1 i
        = Real.sqrt (-2.0 * (ScaledLogSumExp (mixtureExponents S._Mixture x)
            (mixtureScalings S._Mixture x) - Real.log (S._Normalization + 1e-10)))
          / Real.sqrt (Dim : ℝ))
      ∧ (Dim : ℝ) * ((weight S x Error).2.1 ⟨0, hDim⟩) ^ 2
        = -2.0 * (ScaledLogSumExp (mixtureExponents S._Mixture x)
            (mixtureScalings S._Mixture x) - Real.log (S._Normalization + 1e-10)) := by
  have hw : ∀ i : Fin Dim, (weight S x Error).2.1 i
      = Real.sqrt (-2.0 * (ScaledLogSumExp (mixtureExponents S._Mixture x)
          (mixtureScalings S._Mixture x) - Real.log (S._Normalization + 1e-10)))
        / Real.sqrt (Dim : ℝ) := by
    intro i
    simp [weight, hEn]
  refine ⟨hw, ?_⟩
  rw [hw ⟨0, hDim⟩]
  have hDne : ((Dim : ℝ)) ≠ 0 := ne_of_gt (by exact_mod_cast hDim)
  rw [div_pow, Real.sq_sqrt hRad, Real.sq_sqrt (Nat.cast_nonneg Dim)]
  rw [mul_comm]
  exact div_mul_cancel₀ _ hDne

/-- Witness for the equal-distribution theorem at the concrete enabled demo
model, dimension 1, and the zero raw error. -/
theorem weight_equal_distribution_witness :
    (∀ i : Fin 1, (weight demoModel (fun _ => 0) (fun _ => 0)).2.1 i
        = Real.sqrt (-2.0 * (ScaledLogSumExp (mixtureExponents demoModel._Mixture (fun _ => 0))
            (mixtureScalings demoModel._Mixture (fun _ => 0))
          - Real.log (demoModel._Normalization + 1e-10))) / Real.sqrt ((1 : ℕ) : ℝ))
      ∧ ((1 : ℕ) : ℝ) * ((weight demoModel (fun _ => 0) (fun _ => 0)).2.1 ⟨0, Nat.zero_lt_one⟩) ^ 2
        = -2.0 * (ScaledLogSumExp (mixtureExponents demoModel._Mixture (fun _ => 0))
            (mixtureScalings demoModel._Mixture (fun _ => 0))
          - Real.log (demoModel._Normalization + 1e-10)) :=
  weight_equal_distribution demoModel rfl Nat.zero_lt_one (fun _ => 0) (fun _ => 0)
    demoModel_radicand_nonneg

/-- Witness for permutation invariance: swapping the two components of a
concrete two-component mixture. -/
theorem weight_permutation_invariant_witness :
    ((addMixture false demoModel (⟨[demoComponent, demoComponentB]⟩ : MixtureType 1)).map
        (fun S1 => (weight S1 (fun _ => 0) (fun _ => 0)).2.1))
      = ((addMixture false demoModel (⟨[demoComponentB, demoComponent]⟩ : MixtureType 1)).map
        (fun S2 => (weight S2 (fun _ => 0) (fun _ => 0)).2.1)) :=
  weight_permutation_invariant demoModel rfl ⟨[demoComponent, demoComponentB]⟩
    ⟨[demoComponentB, demoComponent]⟩ (List.Perm.swap demoComponentB demoComponent [])
    (by simp) false (fun _ => 0) (fun _ => 0)

/-- C10: attaching an empty mixture is asymmetric: the standard strategy
completes and stores the normalization constant `0`, while the special strategy
reads component index `0`, which does not exist, so its normalization is
undefined. -/
theorem addMixture_empty_asymmetric {Dim : ℕ} (M : MixtureType Dim) (h : M.comps = []) :
    addMixtureNorm false M = some 0 ∧ addMixtureNorm true M = none := by
  refine ⟨?_, ?_⟩ <;> simp [addMixtureNorm, h]

/-- Witness for the empty-mixture asymmetry at the concrete empty mixture of
dimension 1. -/
theorem addMixture_empty_asymmetric_witness :
    addMixtureNorm false (⟨[]⟩ : MixtureType 1) = some 0
      ∧ addMixtureNorm true (⟨[]⟩ : MixtureType 1) = none :=
  addMixture_empty_asymmetric ⟨[]⟩ rfl

end LibRSF
